import Mathlib

/-!
# Bluetooth speaker firmware: raw image renderer and button relay

Shallow embedding of the Arduino sketches

* `Software/Display Logo/src/main.cpp` (`displayRawImage`),
* `Software/Speaker Code Combined/src/main.cpp` (`setup`, `loop`, `displayRawImage`),
* `Software/SpeakerCode/src/BLEButtonControl.cpp` (`setup`, `loop`),
* `Software/SpeakerCode/src/main.cpp` (`setup`, `loop`),

followed by the properties proved about them.

Conventions.  `uint16_t`, `uint32_t` and `uint8_t` values are natural numbers, reduced modulo
`2 ^ 16`, `2 ^ 32`, `2 ^ 8` where the source converts.  A C `float` is an IEEE 754 binary32
value; the renderer only ever forms non-negative ones (every operand starts as a `uint16_t`),
so the model keeps the non-negative finite values as exact rationals together with `+inf` and
`NaN`, and rounds every operation to nearest, ties to even, with a 24-bit significand.
Calls into the board libraries are recorded as events, in program order.
-/

namespace BluetoothSpeaker

/-! ## binary32 arithmetic used by the renderer -/

/-- A non-negative binary32 value: a finite value held exactly, `+inf`, or `NaN`. -/
inductive F32 where
  | fin (q : ℚ)
  | inf
  | nan
deriving DecidableEq

/-- Round to the nearest integer, ties to the even one. -/
def rne (t : ℚ) : ℤ :=
  let f := ⌊t⌋
  let r := t - f
  if r < 1/2 then f
  else if 1/2 < r then f + 1
  else if f % 2 = 0 then f else f + 1

/-- Round a non-negative real to binary32 (round to nearest, ties to even): the exponent is
that of the binade of `q`, not below the subnormal exponent `-126`; the significand has 24
bits; a result of `2 ^ 128` or more overflows to `+inf`. -/
def F32.round (q : ℚ) : F32 :=
  if q = 0 then F32.fin 0
  else
    let e := max (Int.log 2 q) (-126)
    let v := (rne (q / 2 ^ (e - 23)) : ℚ) * 2 ^ (e - 23)
    if 2 ^ 128 ≤ v then F32.inf else F32.fin v

/-- Conversion of an unsigned integer to `float`, as in `(float)screenWidth` and in the
promotion of `x`, `y` and `rawImageWidth` inside a `float` division. -/
def F32.ofNat (n : Nat) : F32 := F32.round n

/-- The `float` division `a / b` on non-negative operands: a non-zero value over zero is
`+inf`, zero over zero is `NaN`, a finite value over `+inf` is zero. -/
def F32.div : F32 → F32 → F32
  | .fin a, .fin b => if b = 0 then (if a = 0 then .nan else .inf) else F32.round (a / b)
  | .fin _, .inf => .fin 0
  | .inf, .fin _ => .inf
  | .inf, .inf => .nan
  | .nan, _ => .nan
  | _, .nan => .nan

/-- Conversion of a `float` to `uint16_t`: truncation toward zero.  Values outside the range of
`uint16_t` (undefined in C++) are reduced modulo `2 ^ 16`, `+inf` and `NaN` give `0`; the
renderer reaches neither case for 16-bit dimensions (see `srcCoord_lt`). -/
def F32.toUInt16 : F32 → Nat
  | .fin q => ⌊q⌋₊ % 65536
  | _ => 0

/-! ## The storage and the display, as the renderer uses them -/

/-- One byte of a file. -/
abbrev Byte := Fin 256

/-- Modelled from the spec: the storage capability (`File` of the board `FS` library, which
is not part of this repository): an open file is its bytes and a read cursor. -/
structure File where
  data : List Byte
  pos : Nat

/-- Modelled from the spec: `file.seek(pos, SeekSet)` moves the cursor to `pos`; the renderer
ignores the result of the call. -/
def File.seek (f : File) (pos : Nat) : File := { f with pos := pos }

/-- Modelled from the spec: `file.available()` is the number of bytes between the cursor and
the end of the file, zero when the cursor is at or past the end. -/
def File.available (f : File) : Nat := f.data.length - f.pos

/-- Modelled from the spec: `file.read()` returns the byte under the cursor and advances, or
returns `-1` at the end of the file (a read may deliver fewer bytes than asked for). -/
def File.read (f : File) : Int × File :=
  match f.data[f.pos]? with
  | some b => ((b.val : Int), { f with pos := f.pos + 1 })
  | none => (-1, f)

/-- Conversion of the `int` that `file.read()` returns to `uint8_t`. -/
def toUInt8 (v : Int) : Nat := (v % 256).toNat

/-- Calls the renderer makes into the board libraries. -/
inductive Ev where
  | println (msg : String)
  | seek (off : Nat)
  | drawPixel (x y color : Nat)
  | close
deriving DecidableEq

/-! ## `displayRawImage` -/

/-- The source line `float scaleX = (float)screenWidth / rawImageWidth;` (and `scaleY`). -/
def scaleFactor (screen raw : Nat) : F32 := F32.div (F32.ofNat screen) (F32.ofNat raw)

/-- The source line `uint16_t rawX = x / scaleX;` (and `rawY = y / scaleY`). -/
def srcCoord (scale : F32) (x : Nat) : Nat := F32.toUInt16 (F32.div (F32.ofNat x) scale)

/-- The source line `uint32_t pixelOffset = (rawY * rawImageWidth + rawX) * 2;`: the operands
are promoted to the 32-bit `int` of the target and the result becomes a `uint32_t`, hence the
reduction modulo `2 ^ 32`. -/
def pixelOffset (rawImageWidth rawX rawY : Nat) : Nat :=
  ((rawY * rawImageWidth + rawX) * 2) % 2 ^ 32

/-- The source line `pixelColor = (highByte << 8) | lowByte;` stored in a `uint16_t`. -/
def packColor (highByte lowByte : Nat) : Nat := ((highByte <<< 8) ||| lowByte) % 65536

/-- Body of the inner loop of `displayRawImage` for the destination pixel `(x, y)`: map back to
the source coordinates, seek, and when `file.available()` is non-zero read two bytes and draw.
Returns the file with its new cursor and the calls made. -/
def renderPixel (scaleX scaleY : F32) (rawImageWidth : Nat) (y x : Nat) (file : File) :
    File × List Ev :=
  let rawX := srcCoord scaleX x
  let rawY := srcCoord scaleY y
  let pixelOffset := pixelOffset rawImageWidth rawX rawY
  let file := file.seek pixelOffset
  if file.available ≠ 0 then
    let r1 := file.read
    let highByte := toUInt8 r1.1
    let r2 := r1.2.read
    let lowByte := toUInt8 r2.1
    let pixelColor := packColor highByte lowByte
    (r2.2, [Ev.seek pixelOffset, Ev.drawPixel x y pixelColor])
  else (file, [Ev.seek pixelOffset])

/-- The two nested `for` loops of `displayRawImage`: rows `y = 0 .. imageHeight - 1`, and in
each row columns `x = 0 .. imageWidth - 1`, threading the file and appending the calls. -/
def renderRows (scaleX scaleY : F32) (rawImageWidth imageWidth imageHeight : Nat)
    (st : File × List Ev) : File × List Ev :=
  (List.range imageHeight).foldl (fun st y =>
    (List.range imageWidth).foldl (fun st x =>
      let r := renderPixel scaleX scaleY rawImageWidth y x st.1
      (r.1, st.2 ++ r.2)) st) st

/-- The function `displayRawImage(filePath)` of both display sketches (the two copies are the
same text).  `fs` is the mounted file system (`SPIFFS.open`), `W` and `H` are what
`tft.width()` and `tft.height()` return.  The locals `rawImageWidth` and `rawImageHeight`
("Replace with the actual RAW image width") are parameters here; the sketches set them to
`shippedRawImageWidth` and `shippedRawImageHeight`.  The result is the sequence of library
calls made. -/
def displayRawImage (fs : String → Option (List Byte)) (W H rawImageWidth rawImageHeight : Nat)
    (filePath : String) : List Ev :=
  match fs filePath with
  | none => [Ev.println "Failed to open image file"]
  | some data =>
    let file : File := ⟨data, 0⟩
    let screenWidth := W
    let screenHeight := H
    let scaleX := scaleFactor screenWidth rawImageWidth
    let scaleY := scaleFactor screenHeight rawImageHeight
    let imageWidth := screenWidth
    let imageHeight := screenHeight
    let st := renderRows scaleX scaleY rawImageWidth imageWidth imageHeight (file, [])
    st.2 ++ [Ev.close, Ev.println "Image rendered successfully."]

/-- The value `uint16_t rawImageWidth = 240;` of both sketches. -/
def shippedRawImageWidth : Nat := 240

/-- The value `uint16_t rawImageHeight = 320;` of both sketches. -/
def shippedRawImageHeight : Nat := 320

/-- The `drawPixel` calls of a trace, in order, as `(x, y, color)`. -/
def draws (tr : List Ev) : List (Nat × Nat × Nat) :=
  tr.filterMap fun
    | Ev.drawPixel x y c => some (x, y, c)
    | _ => none

/-- The `seek` offsets of a trace, in order. -/
def seeks (tr : List Ev) : List Nat :=
  tr.filterMap fun
    | Ev.seek off => some off
    | _ => none

/-- Modelled from the spec: the contents of the pixel sink, a colour at every coordinate. -/
def Frame := Nat → Nat → Nat

/-- Modelled from the spec: effect of one library call on the sink; only `drawPixel` writes. -/
def applyEv (fr : Frame) : Ev → Frame
  | Ev.drawPixel x y c => fun a b => if a = x ∧ b = y then c else fr a b
  | _ => fr

/-- The sink after a whole trace. -/
def applyTrace (fr : Frame) (tr : List Ev) : Frame := tr.foldl applyEv fr

/-- Calls of one destination pixel, from a freshly opened file: the calls do not depend on
where the cursor was, since each pixel seeks first. -/
def pixelEvents (scaleX scaleY : F32) (rawImageWidth : Nat) (data : List Byte) (y x : Nat) :
    List Ev :=
  (renderPixel scaleX scaleY rawImageWidth y x ⟨data, 0⟩).2

/-- The big-endian 16-bit value held by the two bytes at `off` and `off + 1`. -/
def colorAt (data : List Byte) (off : Nat) : Nat :=
  (data.getD off 0).val * 256 + (data.getD (off + 1) 0).val

/-! ## The button sketches -/

/-- The Arduino constant `LOW`. -/
def LOW : Nat := 0

/-- The Arduino constant `HIGH`. -/
def HIGH : Nat := 1

/-- `#define playPauseButtonPin 12`. -/
def playPauseButtonPin : Nat := 12

/-- `#define nextTrackButtonPin 14`. -/
def nextTrackButtonPin : Nat := 14

/-- `#define prevTrackButtonPin 27`. -/
def prevTrackButtonPin : Nat := 27

/-- `#define volumeUpButtonPin 33`. -/
def volumeUpButtonPin : Nat := 33

/-- `#define volumeDownButtonPin 32`. -/
def volumeDownButtonPin : Nat := 32

/-- `#define LED_BUILTIN 2`. -/
def LED_BUILTIN : Nat := 2

/-- The pin modes the sketches pass to `pinMode`. -/
inductive PinMode where
  | INPUT_PULLUP
  | INPUT_PULLDOWN
  | OUTPUT
deriving DecidableEq

/-- The media keys the sketches pass to `bleKeyboard.write`. -/
inductive MediaKey where
  | KEY_MEDIA_PLAY_PAUSE
  | KEY_MEDIA_NEXT_TRACK
  | KEY_MEDIA_PREVIOUS_TRACK
  | KEY_MEDIA_VOLUME_UP
  | KEY_MEDIA_VOLUME_DOWN
deriving DecidableEq

/-- Calls the button sketches make into the board libraries. -/
inductive Call where
  | println (msg : String)
  | pinMode (pin : Nat) (mode : PinMode)
  | digitalWrite (pin level : Nat)
  | write (key : MediaKey)
  | delay (ms : Nat)
deriving DecidableEq

/-- The global variables of the five-button sketches. -/
structure Globals where
  playPauseButtonState : Nat
  nextTrackButtonState : Nat
  prevTrackButtonState : Nat
  volumeUpButtonState : Nat
  volumeDownButtonState : Nat
  firstConnection : Bool

/-- The initialisers of the globals: every state `HIGH`, `firstConnection = false`. -/
def Globals.init : Globals := ⟨HIGH, HIGH, HIGH, HIGH, HIGH, false⟩

/-- The keys written by a sequence of calls, in order. -/
def keysWritten (cs : List Call) : List MediaKey :=
  cs.filterMap fun
    | Call.write k => some k
    | _ => none

/-- The `pinMode` calls of a sequence of calls, in order. -/
def pinModes (cs : List Call) : List (Nat × PinMode) :=
  cs.filterMap fun
    | Call.pinMode p m => some (p, m)
    | _ => none

/-- The button pins with the media key each one sends, in the order `loop()` tests them. -/
def buttonKeys : List (Nat × MediaKey) :=
  [ (playPauseButtonPin, MediaKey.KEY_MEDIA_PLAY_PAUSE),
    (nextTrackButtonPin, MediaKey.KEY_MEDIA_NEXT_TRACK),
    (prevTrackButtonPin, MediaKey.KEY_MEDIA_PREVIOUS_TRACK),
    (volumeUpButtonPin, MediaKey.KEY_MEDIA_VOLUME_UP),
    (volumeDownButtonPin, MediaKey.KEY_MEDIA_VOLUME_DOWN) ]

namespace Combined

/-- The button and LED part of `setup()` in `Speaker Code Combined/src/main.cpp`, lines 81-90
(the comment there reads "Set button pins as inputs with pull-ups"). -/
def setup : List Call :=
  [ Call.pinMode playPauseButtonPin PinMode.INPUT_PULLDOWN,
    Call.pinMode nextTrackButtonPin PinMode.INPUT_PULLDOWN,
    Call.pinMode prevTrackButtonPin PinMode.INPUT_PULLDOWN,
    Call.pinMode volumeUpButtonPin PinMode.INPUT_PULLDOWN,
    Call.pinMode volumeDownButtonPin PinMode.INPUT_PULLDOWN,
    Call.pinMode LED_BUILTIN PinMode.OUTPUT,
    Call.digitalWrite LED_BUILTIN LOW ]

/-- One iteration of `loop()` in `Speaker Code Combined/src/main.cpp`.  `isConnected` is what
`bleKeyboard.isConnected()` returns and `digitalRead` what the pins read. -/
def loop (isConnected : Bool) (digitalRead : Nat → Nat) (g : Globals) : Globals × List Call :=
  if isConnected then
    let c0 := if !g.firstConnection then
        [Call.println "Connection Established.", Call.digitalWrite LED_BUILTIN HIGH] else []
    let g := { g with firstConnection := true }
    let g := { g with playPauseButtonState := digitalRead playPauseButtonPin }
    let g := { g with nextTrackButtonState := digitalRead nextTrackButtonPin }
    let g := { g with prevTrackButtonState := digitalRead prevTrackButtonPin }
    let g := { g with volumeUpButtonState := digitalRead volumeUpButtonPin }
    let g := { g with volumeDownButtonState := digitalRead volumeDownButtonPin }
    let c1 := if g.playPauseButtonState = LOW then
        [Call.println "Play/Pause button pressed", Call.write MediaKey.KEY_MEDIA_PLAY_PAUSE,
          Call.delay 500] else []
    let c2 := if g.nextTrackButtonState = LOW then
        [Call.println "Next Track button pressed", Call.write MediaKey.KEY_MEDIA_NEXT_TRACK,
          Call.delay 300] else []
    let c3 := if g.prevTrackButtonState = LOW then
        [Call.println "Previous Track button pressed",
          Call.write MediaKey.KEY_MEDIA_PREVIOUS_TRACK, Call.delay 300] else []
    let c4 := if g.volumeUpButtonState = LOW then
        [Call.println "Volume Up button pressed", Call.write MediaKey.KEY_MEDIA_VOLUME_UP,
          Call.delay 300] else []
    let c5 := if g.volumeDownButtonState = LOW then
        [Call.println "Volume Down button pressed", Call.write MediaKey.KEY_MEDIA_VOLUME_DOWN,
          Call.delay 300] else []
    (g, c0 ++ c1 ++ c2 ++ c3 ++ c4 ++ c5)
  else
    (g, [Call.println "Device not connected. Waiting...", Call.digitalWrite LED_BUILTIN HIGH,
      Call.delay 200, Call.digitalWrite LED_BUILTIN LOW, Call.delay 200])

end Combined

namespace BLEButtonControl

/-- The button and LED part of `setup()` in `SpeakerCode/src/BLEButtonControl.cpp`, lines
57-68. -/
def setup : List Call :=
  [ Call.pinMode playPauseButtonPin PinMode.INPUT_PULLUP,
    Call.pinMode nextTrackButtonPin PinMode.INPUT_PULLUP,
    Call.pinMode prevTrackButtonPin PinMode.INPUT_PULLUP,
    Call.pinMode volumeUpButtonPin PinMode.INPUT_PULLUP,
    Call.pinMode volumeDownButtonPin PinMode.INPUT_PULLUP,
    Call.pinMode LED_BUILTIN PinMode.OUTPUT,
    Call.digitalWrite LED_BUILTIN LOW,
    Call.println "Waiting for connection to a device..." ]

/-- One iteration of `loop()` in `SpeakerCode/src/BLEButtonControl.cpp`: as the combined
sketch, with a 300 ms delay after every key. -/
def loop (isConnected : Bool) (digitalRead : Nat → Nat) (g : Globals) : Globals × List Call :=
  if isConnected then
    let c0 := if !g.firstConnection then
        [Call.println "Connection Established.", Call.digitalWrite LED_BUILTIN HIGH] else []
    let g := { g with firstConnection := true }
    let g := { g with playPauseButtonState := digitalRead playPauseButtonPin }
    let g := { g with nextTrackButtonState := digitalRead nextTrackButtonPin }
    let g := { g with prevTrackButtonState := digitalRead prevTrackButtonPin }
    let g := { g with volumeUpButtonState := digitalRead volumeUpButtonPin }
    let g := { g with volumeDownButtonState := digitalRead volumeDownButtonPin }
    let c1 := if g.playPauseButtonState = LOW then
        [Call.println "Play/Pause button pressed", Call.write MediaKey.KEY_MEDIA_PLAY_PAUSE,
          Call.delay 300] else []
    let c2 := if g.nextTrackButtonState = LOW then
        [Call.println "Next Track button pressed", Call.write MediaKey.KEY_MEDIA_NEXT_TRACK,
          Call.delay 300] else []
    let c3 := if g.prevTrackButtonState = LOW then
        [Call.println "Previous Track button pressed",
          Call.write MediaKey.KEY_MEDIA_PREVIOUS_TRACK, Call.delay 300] else []
    let c4 := if g.volumeUpButtonState = LOW then
        [Call.println "Volume Up button pressed", Call.write MediaKey.KEY_MEDIA_VOLUME_UP,
          Call.delay 300] else []
    let c5 := if g.volumeDownButtonState = LOW then
        [Call.println "Volume Down button pressed", Call.write MediaKey.KEY_MEDIA_VOLUME_DOWN,
          Call.delay 300] else []
    (g, c0 ++ c1 ++ c2 ++ c3 ++ c4 ++ c5)
  else
    (g, [Call.println "Device not connected. Waiting...", Call.digitalWrite LED_BUILTIN HIGH,
      Call.delay 200, Call.digitalWrite LED_BUILTIN LOW, Call.delay 200])

end BLEButtonControl

namespace SpeakerCodeMain

/-- The global variables of the three-button sketch. -/
structure Globals where
  playPauseButtonState : Nat
  nextTrackButtonState : Nat
  prevTrackButtonState : Nat

/-- The button and LED part of `setup()` in `SpeakerCode/src/main.cpp`, lines 27-36. -/
def setup : List Call :=
  [ Call.pinMode playPauseButtonPin PinMode.INPUT_PULLUP,
    Call.pinMode nextTrackButtonPin PinMode.INPUT_PULLUP,
    Call.pinMode prevTrackButtonPin PinMode.INPUT_PULLUP,
    Call.pinMode LED_BUILTIN PinMode.OUTPUT,
    Call.digitalWrite LED_BUILTIN LOW,
    Call.println "Waiting for connection to a device..." ]

/-- One iteration of `loop()` in `SpeakerCode/src/main.cpp` (three buttons). -/
def loop (isConnected : Bool) (digitalRead : Nat → Nat) (g : Globals) : Globals × List Call :=
  if isConnected then
    let c0 := [Call.digitalWrite LED_BUILTIN HIGH]
    let g := { g with playPauseButtonState := digitalRead playPauseButtonPin }
    let g := { g with nextTrackButtonState := digitalRead nextTrackButtonPin }
    let g := { g with prevTrackButtonState := digitalRead prevTrackButtonPin }
    let c1 := if g.playPauseButtonState = LOW then
        [Call.println "Play/Pause button pressed", Call.write MediaKey.KEY_MEDIA_PLAY_PAUSE,
          Call.delay 300] else []
    let c2 := if g.nextTrackButtonState = LOW then
        [Call.println "Next Track button pressed", Call.write MediaKey.KEY_MEDIA_NEXT_TRACK,
          Call.delay 300] else []
    let c3 := if g.prevTrackButtonState = LOW then
        [Call.println "Previous Track button pressed",
          Call.write MediaKey.KEY_MEDIA_PREVIOUS_TRACK, Call.delay 300] else []
    (g, c0 ++ c1 ++ c2 ++ c3)
  else
    (g, [Call.println "Device not connected. Waiting...", Call.digitalWrite LED_BUILTIN HIGH,
      Call.delay 200, Call.digitalWrite LED_BUILTIN LOW, Call.delay 200])

end SpeakerCodeMain

/-- The level an input pin reads while its button is not pressed (electrical behaviour of the
board): a pull-up holds the pin `HIGH`, a pull-down holds it `LOW`. -/
def idleLevel : PinMode → Nat
  | PinMode.INPUT_PULLUP => HIGH
  | PinMode.INPUT_PULLDOWN => LOW
  | PinMode.OUTPUT => LOW

/-- What `digitalRead` returns on every pin when no button is pressed, given the `pinMode`
calls that `setup()` made (the last call for a pin decides; a pin never configured reads
`LOW`). -/
def idleRead (cs : List Call) (pin : Nat) : Nat :=
  match (pinModes cs).reverse.find? (fun pm => pm.1 = pin) with
  | some pm => idleLevel pm.2
  | none => LOW

/-! ## Facts about the binary32 model -/

theorem rne_intCast (m : ℤ) : rne (m : ℚ) = m := by
  simp [rne]

theorem abs_rne_sub_le (t : ℚ) : |(rne t : ℚ) - t| ≤ 1 / 2 := by
  have h0 : (0 : ℚ) ≤ t - ⌊t⌋ := sub_nonneg.mpr (Int.floor_le t)
  have h1 : t - ⌊t⌋ < 1 := by linarith [Int.lt_floor_add_one t]
  unfold rne
  simp only
  split_ifs with ha hb hc
  · rw [abs_le]; constructor <;> linarith
  · rw [abs_le]; push_cast; constructor <;> linarith
  · rw [abs_le]; constructor <;> linarith
  · rw [abs_le]; push_cast; constructor <;> linarith

theorem two_zpow_pos (k : ℤ) : (0 : ℚ) < 2 ^ k := zpow_pos (by norm_num) k

/-- Shape of a correctly rounded positive value whose binade is known. -/
theorem round_of_binade (q : ℚ) (e : ℤ) (hlo : (2 : ℚ) ^ e ≤ q) (hhi : q < 2 ^ (e + 1))
    (he : -126 ≤ e) (he2 : e ≤ 126) :
    F32.round q = F32.fin ((rne (q / 2 ^ (e - 23)) : ℚ) * 2 ^ (e - 23)) := by
  have hq : 0 < q := lt_of_lt_of_le (two_zpow_pos e) hlo
  have hlog : Int.log 2 q = e := by
    apply le_antisymm
    · have := (Int.lt_zpow_iff_log_lt (R := ℚ) (b := 2) (by norm_num) (x := e + 1) hq).mp
        (by exact_mod_cast hhi)
      omega
    · exact (Int.zpow_le_iff_le_log (R := ℚ) (b := 2) (by norm_num) hq).mp (by exact_mod_cast hlo)
  unfold F32.round
  rw [if_neg hq.ne', hlog, max_eq_left he]
  simp only
  rw [if_neg]
  rw [not_le]
  have hu := two_zpow_pos (e - 23)
  have ht : q / 2 ^ (e - 23) < 2 ^ (24 : ℤ) := by
    rw [div_lt_iff₀ hu, ← zpow_add₀ (by norm_num : (2 : ℚ) ≠ 0)]
    have : (24 : ℤ) + (e - 23) = e + 1 := by ring
    rw [this]; exact hhi
  have hr : (rne (q / 2 ^ (e - 23)) : ℚ) ≤ 2 ^ (24 : ℤ) := by
    have h := abs_rne_sub_le (q / 2 ^ (e - 23))
    rw [abs_le] at h
    have h2 : (rne (q / 2 ^ (e - 23)) : ℚ) < ((2 ^ 24 : ℤ) : ℚ) + 1 := by
      push_cast; norm_num at ht ⊢; linarith [h.2]
    have h3 : rne (q / 2 ^ (e - 23)) < 2 ^ 24 + 1 := by exact_mod_cast h2
    have h4 : rne (q / 2 ^ (e - 23)) ≤ 2 ^ 24 := by omega
    exact_mod_cast h4
  calc (rne (q / 2 ^ (e - 23)) : ℚ) * 2 ^ (e - 23)
      ≤ 2 ^ (24 : ℤ) * 2 ^ (e - 23) := mul_le_mul_of_nonneg_right hr hu.le
    _ = 2 ^ (e + 1) := by rw [← zpow_add₀ (by norm_num : (2 : ℚ) ≠ 0)]; congr 1; ring
    _ ≤ 2 ^ (127 : ℤ) := zpow_le_zpow_right₀ (by norm_num) (by omega)
    _ < 2 ^ 128 := by norm_num

/-- Every value `m * 2^k` with a 24-bit significand inside the binary32 range is its own
rounding. -/
theorem round_dyadic (m : ℕ) (k : ℤ) (hm : m < 2 ^ 24) (hk : -149 ≤ k)
    (hq : (m : ℚ) * 2 ^ k < 2 ^ 128) : F32.round ((m : ℚ) * 2 ^ k) = F32.fin ((m : ℚ) * 2 ^ k) := by
  rcases Nat.eq_zero_or_pos m with h0 | hpos
  · subst h0; simp [F32.round]
  have h2 : (2 : ℚ) ≠ 0 := by norm_num
  have hq0 : (0 : ℚ) < (m : ℚ) * 2 ^ k := mul_pos (by exact_mod_cast hpos) (two_zpow_pos k)
  have hlog : Int.log 2 ((m : ℚ) * 2 ^ k) < k + 24 := by
    apply (Int.lt_zpow_iff_log_lt (R := ℚ) (b := 2) (by norm_num) hq0).mp
    rw [zpow_add₀ (by norm_num), mul_comm]
    apply mul_lt_mul_of_pos_left _ (by exact_mod_cast two_zpow_pos k)
    have : (m : ℚ) < ((2 ^ 24 : ℕ) : ℚ) := by exact_mod_cast hm
    norm_num at this ⊢
    exact this
  unfold F32.round
  rw [if_neg hq0.ne']
  simp only
  set e := max (Int.log 2 ((m : ℚ) * 2 ^ k)) (-126) with he
  have hek : e - 23 ≤ k := by
    rcases max_cases (Int.log 2 ((m : ℚ) * 2 ^ k)) (-126) with ⟨h, _⟩ | ⟨h, _⟩ <;> omega
  obtain ⟨j, hj⟩ : ∃ j : ℕ, k = (e - 23) + j := ⟨(k - (e - 23)).toNat, by omega⟩
  have hdiv : (m : ℚ) * 2 ^ k / 2 ^ (e - 23) = ((m * 2 ^ j : ℕ) : ℤ) := by
    rw [hj, zpow_add₀ h2, zpow_natCast]
    field_simp
    ring
  rw [hdiv, rne_intCast]
  have hback : (((m * 2 ^ j : ℕ) : ℤ) : ℚ) * 2 ^ (e - 23) = (m : ℚ) * 2 ^ k := by
    rw [hj, zpow_add₀ h2, zpow_natCast]
    push_cast
    ring
  rw [hback, if_neg (not_le.mpr hq)]

theorem round_natCast (n : ℕ) (hn : n < 2 ^ 24) : F32.round (n : ℚ) = F32.fin n := by
  have h := round_dyadic n 0 hn (by norm_num) (by
    have : (n : ℚ) < ((2 ^ 24 : ℕ) : ℚ) := by exact_mod_cast hn
    norm_num at this ⊢; linarith)
  simpa using h

/-- Relative error of rounding a positive value of the normal range: half an ulp, hence at
most `q / 2^24`. The result is finite and positive. -/
theorem round_rel_err (q : ℚ) (hlo : (2 : ℚ) ^ (-126 : ℤ) ≤ q) (hhi : q < 2 ^ (127 : ℤ)) :
    ∃ v : ℚ, F32.round q = F32.fin v ∧ |v - q| ≤ q / 2 ^ 24 := by
  have hq : 0 < q := lt_of_lt_of_le (two_zpow_pos _) hlo
  have h2 : (2 : ℚ) ≠ 0 := by norm_num
  have he1 : -126 ≤ Int.log 2 q :=
    (Int.zpow_le_iff_le_log (R := ℚ) (b := 2) (by norm_num) hq).mp (by exact_mod_cast hlo)
  have he2 : Int.log 2 q < 127 :=
    (Int.lt_zpow_iff_log_lt (R := ℚ) (b := 2) (by norm_num) hq).mp (by exact_mod_cast hhi)
  have hA : (2 : ℚ) ^ (Int.log 2 q) ≤ q := by
    exact_mod_cast Int.zpow_log_le_self (R := ℚ) (b := 2) (by norm_num) hq
  have hB : q < (2 : ℚ) ^ (Int.log 2 q + 1) := by
    exact_mod_cast Int.lt_zpow_succ_log_self (R := ℚ) (b := 2) (by norm_num) q
  refine ⟨_, round_of_binade q (Int.log 2 q) hA hB he1 (by omega), ?_⟩
  set e := Int.log 2 q
  have hu := two_zpow_pos (e - 23)
  have h := abs_rne_sub_le (q / 2 ^ (e - 23))
  have hfac : (rne (q / 2 ^ (e - 23)) : ℚ) * 2 ^ (e - 23) - q
      = ((rne (q / 2 ^ (e - 23)) : ℚ) - q / 2 ^ (e - 23)) * 2 ^ (e - 23) := by
    field_simp
  rw [hfac, abs_mul, abs_of_pos hu]
  calc |(rne (q / 2 ^ (e - 23)) : ℚ) - q / 2 ^ (e - 23)| * 2 ^ (e - 23)
      ≤ 1 / 2 * 2 ^ (e - 23) := mul_le_mul_of_nonneg_right h hu.le
    _ = 2 ^ e / 2 ^ 24 := by
        have : e - 23 = e + (-23 : ℤ) := by ring
        rw [this, zpow_add₀ h2]
        norm_num
        ring
    _ ≤ q / 2 ^ 24 := by
        apply div_le_div_of_nonneg_right hA (by norm_num)

theorem ofNat_u16 (n : ℕ) (hn : n < 65536) : F32.ofNat n = F32.fin n :=
  round_natCast n (by omega)

/-- For positive 16-bit dimensions the scale factor is a finite positive value within half an
ulp of the exact ratio. -/
theorem scaleFactor_spec (W sw : ℕ) (hW0 : 0 < W) (hW : W < 65536) (hs0 : 0 < sw)
    (hs : sw < 65536) :
    ∃ s : ℚ, scaleFactor W sw = F32.fin s ∧ 0 < s ∧
      |s - (W : ℚ) / sw| ≤ (W : ℚ) / sw / 2 ^ 24 := by
  have hWq : (1 : ℚ) ≤ W := by exact_mod_cast hW0
  have hsq : (1 : ℚ) ≤ sw := by exact_mod_cast hs0
  have hWq2 : (W : ℚ) < 65536 := by exact_mod_cast hW
  have hsq2 : (sw : ℚ) < 65536 := by exact_mod_cast hs
  have hsw0 : (0 : ℚ) < sw := by linarith
  have hlo : (2 : ℚ) ^ (-126 : ℤ) ≤ (W : ℚ) / sw := by
    rw [le_div_iff₀ hsw0]
    have h1 : (2 : ℚ) ^ (-126 : ℤ) ≤ 1 / 65536 := by norm_num
    have h2 := mul_le_mul_of_nonneg_right h1 hsw0.le
    generalize (2 : ℚ) ^ (-126 : ℤ) = c at h2 ⊢
    linarith
  have hhi : (W : ℚ) / sw < 2 ^ (127 : ℤ) := by
    rw [div_lt_iff₀ hsw0]
    have h1 : (65536 : ℚ) ≤ 2 ^ (127 : ℤ) := by norm_num
    have h2 := mul_le_mul_of_nonneg_right h1 hsw0.le
    generalize (2 : ℚ) ^ (127 : ℤ) = c at h2 ⊢
    linarith
  obtain ⟨v, hv, herr⟩ := round_rel_err _ hlo hhi
  refine ⟨v, ?_, ?_, herr⟩
  · unfold scaleFactor
    rw [ofNat_u16 W hW, ofNat_u16 sw hs]
    simp only [F32.div]
    rw [if_neg hsw0.ne']
    exact hv
  · have hq : (0 : ℚ) < (W : ℚ) / sw := div_pos (by linarith) hsw0
    rw [abs_le] at herr
    have : (W : ℚ) / sw / 2 ^ 24 < (W : ℚ) / sw := by
      apply div_lt_self hq; norm_num
    linarith [herr.1]

theorem toUInt16_fin_lt (v : ℚ) (n : ℕ) (hn : 0 < n) (hv : v < n) :
    F32.toUInt16 (F32.fin v) < n := by
  have h : ⌊v⌋₊ < n := (Nat.floor_lt' (by omega)).mpr hv
  exact lt_of_le_of_lt (Nat.mod_le _ _) h

theorem toUInt16_fin_eq (v : ℚ) (n : ℕ) (hn : n < 65536) (h1 : (n : ℚ) ≤ v) (h2 : v < n + 1) :
    F32.toUInt16 (F32.fin v) = n := by
  have h0 : (0 : ℚ) ≤ v := le_trans (by exact_mod_cast Nat.zero_le n) h1
  have h : ⌊v⌋₊ = n := (Nat.floor_eq_iff h0).mpr ⟨h1, h2⟩
  simp only [F32.toUInt16, h]
  exact Nat.mod_eq_of_lt hn

theorem srcCoord_zero (s : ℚ) (hs : 0 < s) : srcCoord (F32.fin s) 0 = 0 := by
  unfold srcCoord
  rw [ofNat_u16 0 (by norm_num)]
  simp [F32.div, hs.ne', F32.round, F32.toUInt16]

/-- The rounded quotient `x / s` for a positive 16-bit `x` and a scale whose magnitude is that
of a ratio of 16-bit numbers. -/
theorem div_u16_spec (x : ℕ) (s : ℚ) (hx0 : 0 < x) (hx : x < 65536)
    (hs1 : 1 / 131072 ≤ s) (hs2 : s ≤ 131072) :
    ∃ v : ℚ, F32.div (F32.ofNat x) (F32.fin s) = F32.fin v ∧
      |v - (x : ℚ) / s| ≤ (x : ℚ) / s / 2 ^ 24 := by
  have hs0 : 0 < s := by linarith
  have hxq : (1 : ℚ) ≤ x := by exact_mod_cast hx0
  have hxq2 : (x : ℚ) < 65536 := by exact_mod_cast hx
  have hlo : (2 : ℚ) ^ (-126 : ℤ) ≤ (x : ℚ) / s := by
    rw [le_div_iff₀ hs0]
    have h1 : (2 : ℚ) ^ (-126 : ℤ) ≤ 1 / 131072 := by norm_num
    have h2 := mul_le_mul_of_nonneg_right h1 hs0.le
    generalize (2 : ℚ) ^ (-126 : ℤ) = c at h2 ⊢
    linarith
  have hhi : (x : ℚ) / s < 2 ^ (127 : ℤ) := by
    rw [div_lt_iff₀ hs0]
    have h1 : (65536 * 131072 : ℚ) ≤ 2 ^ (127 : ℤ) := by norm_num
    have h2 := mul_le_mul_of_nonneg_right h1 hs0.le
    generalize (2 : ℚ) ^ (127 : ℤ) = c at h2 ⊢
    nlinarith
  obtain ⟨v, hv, herr⟩ := round_rel_err _ hlo hhi
  refine ⟨v, ?_, herr⟩
  rw [ofNat_u16 x hx]
  simp only [F32.div]
  rw [if_neg hs0.ne']
  exact hv

/-- Bounds on a scale factor that is within half an ulp of a ratio of 16-bit numbers. -/
theorem scale_bounds (W sw : ℕ) (s : ℚ) (hW0 : 0 < W) (hW : W < 65536) (hs0 : 0 < sw)
    (hs : sw < 65536) (herr : |s - (W : ℚ) / sw| ≤ (W : ℚ) / sw / 2 ^ 24) :
    1 / 131072 ≤ s ∧ s ≤ 131072 ∧ (W : ℚ) * (1 - 1 / 2 ^ 24) ≤ s * sw := by
  have hWq : (1 : ℚ) ≤ W := by exact_mod_cast hW0
  have hsq : (1 : ℚ) ≤ sw := by exact_mod_cast hs0
  have hWq2 : (W : ℚ) ≤ 65535 := by exact_mod_cast Nat.lt_succ_iff.mp hW
  have hsq2 : (sw : ℚ) ≤ 65535 := by exact_mod_cast Nat.lt_succ_iff.mp hs
  have hsw0 : (0 : ℚ) < sw := by linarith
  rw [abs_le] at herr
  obtain ⟨h1, h2⟩ := herr
  have hr1 : (1 : ℚ) / 65535 ≤ (W : ℚ) / sw := by
    rw [div_le_div_iff₀ (by norm_num) hsw0]; linarith
  have hr2 : (W : ℚ) / sw ≤ 65535 := by
    rw [div_le_iff₀ hsw0]; nlinarith
  have hmul : (W : ℚ) / sw * sw = W := div_mul_cancel₀ _ hsw0.ne'
  refine ⟨?_, ?_, ?_⟩
  · linarith
  · linarith
  · have h3 : (W : ℚ) / sw * (1 - 1 / 2 ^ 24) ≤ s := by linarith
    have h4 := mul_le_mul_of_nonneg_right h3 hsw0.le
    calc (W : ℚ) * (1 - 1 / 2 ^ 24) = (W : ℚ) / sw * sw * (1 - 1 / 2 ^ 24) := by rw [hmul]
      _ = (W : ℚ) / sw * (1 - 1 / 2 ^ 24) * sw := by ring
      _ ≤ s * sw := h4

/-- Source coordinates stay inside the source image for 16-bit dimensions. -/
theorem srcCoord_lt (W sw x : ℕ) (hW : W < 65536) (hs0 : 0 < sw) (hs : sw < 65536)
    (hx : x < W) : srcCoord (scaleFactor W sw) x < sw := by
  have hW0 : 0 < W := by omega
  obtain ⟨s, hsf, hspos, herr⟩ := scaleFactor_spec W sw hW0 hW hs0 hs
  rw [hsf]
  rcases Nat.eq_zero_or_pos x with hx0 | hx0
  · subst hx0; rw [srcCoord_zero s hspos]; exact hs0
  obtain ⟨hb1, hb2, hb3⟩ := scale_bounds W sw s hW0 hW hs0 hs herr
  obtain ⟨v, hv, hverr⟩ := div_u16_spec x s hx0 (by omega) hb1 hb2
  unfold srcCoord
  rw [hv]
  apply toUInt16_fin_lt _ _ hs0
  rw [abs_le] at hverr
  have hxs : (x : ℚ) / s * s = x := div_mul_cancel₀ _ hspos.ne'
  have h1 : v ≤ (x : ℚ) / s * (1 + 1 / 2 ^ 24) := by linarith [hverr.2]
  have h2 : v * s ≤ (x : ℚ) * (1 + 1 / 2 ^ 24) := by
    have := mul_le_mul_of_nonneg_right h1 hspos.le
    calc v * s ≤ (x : ℚ) / s * (1 + 1 / 2 ^ 24) * s := this
      _ = (x : ℚ) / s * s * (1 + 1 / 2 ^ 24) := by ring
      _ = (x : ℚ) * (1 + 1 / 2 ^ 24) := by rw [hxs]
  have hxW : (x : ℚ) + 1 ≤ W := by exact_mod_cast hx
  have hWq2 : (W : ℚ) < 65536 := by exact_mod_cast hW
  have h3 : v * s < (sw : ℚ) * s := by
    have : (x : ℚ) * (1 + 1 / 2 ^ 24) < (W : ℚ) * (1 - 1 / 2 ^ 24) := by
      norm_num
      linarith
    linarith
  exact lt_of_mul_lt_mul_right h3 hspos.le

theorem scaleFactor_mul (k sw : ℕ) (hk0 : 0 < k) (hs0 : 0 < sw) (hW : k * sw < 65536) :
    scaleFactor (k * sw) sw = F32.fin k := by
  have hk : k < 2 ^ 24 := by nlinarith
  have hs : sw < 65536 := by nlinarith
  unfold scaleFactor
  rw [ofNat_u16 _ hW, ofNat_u16 sw hs]
  have hsw0 : (sw : ℚ) ≠ 0 := by exact_mod_cast hs0.ne'
  simp only [F32.div]
  rw [if_neg hsw0]
  have : ((k * sw : ℕ) : ℚ) / sw = k := by
    push_cast; field_simp
  rw [this]
  exact round_natCast k hk

theorem scaleFactor_half (W : ℕ) (hW0 : 0 < W) (hW : 2 * W < 65536) :
    scaleFactor W (2 * W) = F32.fin (1 / 2) := by
  unfold scaleFactor
  rw [ofNat_u16 _ (by omega), ofNat_u16 _ hW]
  have hW1 : (W : ℚ) ≠ 0 := by exact_mod_cast hW0.ne'
  have hsw0 : ((2 * W : ℕ) : ℚ) ≠ 0 := by push_cast; positivity
  simp only [F32.div]
  rw [if_neg hsw0]
  have : (W : ℚ) / ((2 * W : ℕ) : ℚ) = ((1 : ℕ) : ℚ) * 2 ^ (-1 : ℤ) := by
    push_cast; field_simp; ring
  rw [this, round_dyadic 1 (-1) (by norm_num) (by norm_num) (by norm_num)]
  norm_num

/-- Dividing by the scale factor one half doubles the coordinate exactly. -/
theorem srcCoord_half (x : ℕ) (hx : 2 * x < 65536) : srcCoord (F32.fin (1 / 2)) x = 2 * x := by
  unfold srcCoord
  rw [ofNat_u16 _ (by omega)]
  simp only [F32.div]
  rw [if_neg (by norm_num)]
  have : (x : ℚ) / (1 / 2) = ((2 * x : ℕ) : ℚ) := by push_cast; ring
  rw [this, round_natCast _ (by omega)]
  exact toUInt16_fin_eq _ _ hx le_rfl (by linarith)

/-- Dividing by an integral scale factor and truncating is natural-number division. -/
theorem srcCoord_natScale (k x : ℕ) (hk0 : 0 < k) (hk : k < 65536) (hx : x < 65536) :
    srcCoord (F32.fin k) x = x / k := by
  have hkq : (0 : ℚ) < k := by exact_mod_cast hk0
  have hdx : x / k < 65536 := lt_of_le_of_lt (Nat.div_le_self _ _) hx
  rcases Nat.eq_zero_or_pos x with hx0 | hx0
  · subst hx0; rw [srcCoord_zero _ hkq]; simp
  rcases Nat.eq_zero_or_pos (x % k) with hr | hr
  · -- exact quotient
    have hxk : x = k * (x / k) := by
      have := Nat.div_add_mod x k
      omega
    unfold srcCoord
    rw [ofNat_u16 x hx]
    simp only [F32.div]
    rw [if_neg hkq.ne']
    have : (x : ℚ) / k = ((x / k : ℕ) : ℚ) := by
      rw [div_eq_iff hkq.ne']
      have : ((x : ℕ) : ℚ) = ((k * (x / k) : ℕ) : ℚ) := by rw [← hxk]
      rw [this]; push_cast; ring
    rw [this, round_natCast _ (by omega)]
    exact toUInt16_fin_eq _ _ hdx le_rfl (by linarith)
  · have hk1 : (1 : ℚ) ≤ k := by exact_mod_cast hk0
    have hk2 : (k : ℚ) < 65536 := by exact_mod_cast hk
    obtain ⟨v, hv, hverr⟩ := div_u16_spec x (k : ℚ) hx0 hx (by linarith) (by linarith)
    unfold srcCoord
    rw [hv]
    rw [abs_le] at hverr
    have hxq : (x : ℚ) = (k : ℚ) * ((x / k : ℕ) : ℚ) + ((x % k : ℕ) : ℚ) := by
      exact_mod_cast (Nat.div_add_mod x k).symm
    have hrq : (1 : ℚ) ≤ ((x % k : ℕ) : ℚ) := by exact_mod_cast hr
    have hrk : ((x % k : ℕ) : ℚ) + 1 ≤ k := by exact_mod_cast Nat.mod_lt x hk0
    have hxq2 : (x : ℚ) < 65536 := by exact_mod_cast hx
    have hxk : (x : ℚ) / k * k = x := div_mul_cancel₀ _ hkq.ne'
    have hv1 : ((x : ℚ) / k - (x : ℚ) / k / 2 ^ 24) * k ≤ v * k :=
      mul_le_mul_of_nonneg_right (by linarith [hverr.1]) hkq.le
    have hv2 : v * k ≤ ((x : ℚ) / k + (x : ℚ) / k / 2 ^ 24) * k :=
      mul_le_mul_of_nonneg_right (by linarith [hverr.2]) hkq.le
    have e1 : ((x : ℚ) / k - (x : ℚ) / k / 2 ^ 24) * k = (x : ℚ) - x / 2 ^ 24 := by
      field_simp; ring
    have e2 : ((x : ℚ) / k + (x : ℚ) / k / 2 ^ 24) * k = (x : ℚ) + x / 2 ^ 24 := by
      field_simp; ring
    rw [e1] at hv1
    rw [e2] at hv2
    have hsmall : (x : ℚ) / 2 ^ 24 < 1 := by
      rw [div_lt_iff₀ (by norm_num)]; norm_num; linarith
    apply toUInt16_fin_eq _ _ hdx
    · have : ((x / k : ℕ) : ℚ) * k ≤ v * k := by nlinarith
      exact le_of_mul_le_mul_right this hkq
    · have : v * k < (((x / k : ℕ) : ℚ) + 1) * k := by nlinarith
      exact lt_of_mul_lt_mul_right this hkq.le

/-- Check of the model against a known binary32 value: `4.0f / 3.0f` is `0x3FAAAAAB`, that is
`11184811 / 2 ^ 23`, the scale factor `320.0f / 240` of the shipped configuration. -/
theorem scaleFactor_shipped : scaleFactor 320 240 = F32.fin (11184811 / 8388608) := by
  unfold scaleFactor
  rw [ofNat_u16 320 (by norm_num), ofNat_u16 240 (by norm_num)]
  simp only [F32.div]
  rw [if_neg (by norm_num)]
  rw [round_of_binade _ 0 (by norm_num) (by norm_num) (by norm_num) (by norm_num)]
  have hfl : ⌊((320 : ℕ) : ℚ) / ((240 : ℕ) : ℚ) / 2 ^ ((0 : ℤ) - 23)⌋ = 11184810 := by
    rw [Int.floor_eq_iff]
    norm_num
  have hr : rne (((320 : ℕ) : ℚ) / ((240 : ℕ) : ℚ) / 2 ^ ((0 : ℤ) - 23)) = 11184811 := by
    unfold rne
    simp only [hfl]
    norm_num
  rw [hr]
  norm_num

/-- The rounding is visible in the coordinates: a 14-pixel-wide source on a 2-pixel-wide
display maps column 1 to source column 6, where exact arithmetic would give 7. -/
theorem srcCoord_two_fourteen : srcCoord (scaleFactor 2 14) 1 = 6 := by
  have hs : scaleFactor 2 14 = F32.fin (9586981 / 67108864) := by
    unfold scaleFactor
    rw [ofNat_u16 2 (by norm_num), ofNat_u16 14 (by norm_num)]
    simp only [F32.div]
    rw [if_neg (by norm_num)]
    rw [round_of_binade _ (-3) (by norm_num) (by norm_num) (by norm_num) (by norm_num)]
    have hfl : ⌊((2 : ℕ) : ℚ) / ((14 : ℕ) : ℚ) / 2 ^ ((-3 : ℤ) - 23)⌋ = 9586980 := by
      rw [Int.floor_eq_iff]
      norm_num
    have hr : rne (((2 : ℕ) : ℚ) / ((14 : ℕ) : ℚ) / 2 ^ ((-3 : ℤ) - 23)) = 9586981 := by
      unfold rne
      simp only [hfl]
      norm_num
    rw [hr]
    norm_num
  rw [hs]
  unfold srcCoord
  rw [ofNat_u16 1 (by norm_num)]
  simp only [F32.div]
  rw [if_neg (by norm_num)]
  rw [round_of_binade _ 2 (by norm_num) (by norm_num) (by norm_num) (by norm_num)]
  have hfl : ⌊((1 : ℕ) : ℚ) / (9586981 / 67108864) / 2 ^ ((2 : ℤ) - 23)⌋ = 14680063 := by
    rw [Int.floor_eq_iff]
    norm_num
  have hr : rne (((1 : ℕ) : ℚ) / (9586981 / 67108864) / 2 ^ ((2 : ℤ) - 23)) = 14680063 := by
    unfold rne
    simp only [hfl]
    norm_num
  rw [hr]
  apply toUInt16_fin_eq _ 6 (by norm_num) <;> norm_num

/-! ## Facts about the renderer -/

theorem packColor_eq (h l : ℕ) (hh : h < 256) (hl : l < 256) : packColor h l = h * 256 + l := by
  unfold packColor
  rw [Nat.shiftLeft_eq, Nat.mul_comm h, ← Nat.mul_add_lt_is_or (by omega) h]
  omega

theorem toUInt8_byte (b : Byte) : toUInt8 ((b.val : ℕ) : ℤ) = b.val := by
  unfold toUInt8
  have := b.isLt
  omega

theorem renderPixel_data (sX sY : F32) (rw y x : ℕ) (f : File) :
    (renderPixel sX sY rw y x f).1.data = f.data := by
  have hread : ∀ g : File, g.read.2.data = g.data := by
    intro g
    unfold File.read
    split <;> rfl
  unfold renderPixel
  simp only
  split_ifs
  · rw [hread, hread]; rfl
  · rfl

theorem renderPixel_events (sX sY : F32) (rw y x : ℕ) (f : File) :
    (renderPixel sX sY rw y x f).2 = pixelEvents sX sY rw f.data y x := by
  unfold pixelEvents renderPixel File.read File.seek File.available
  simp only

theorem foldl_pixels (sX sY : F32) (rw y : ℕ) (xs : List ℕ) (st : File × List Ev) :
    (xs.foldl (fun st x =>
        let r := renderPixel sX sY rw y x st.1
        (r.1, st.2 ++ r.2)) st).1.data = st.1.data ∧
    (xs.foldl (fun st x =>
        let r := renderPixel sX sY rw y x st.1
        (r.1, st.2 ++ r.2)) st).2
      = st.2 ++ xs.flatMap (fun x => pixelEvents sX sY rw st.1.data y x) := by
  induction xs generalizing st with
  | nil => simp
  | cons x xs ih =>
    simp only [List.foldl_cons, List.flatMap_cons]
    obtain ⟨h1, h2⟩ := ih (let r := renderPixel sX sY rw y x st.1; (r.1, st.2 ++ r.2))
    dsimp only at h1 h2
    refine ⟨h1.trans (renderPixel_data sX sY rw y x st.1), ?_⟩
    rw [h2]
    simp only [renderPixel_data, renderPixel_events, List.append_assoc]

theorem foldl_rows (sX sY : F32) (rw iw : ℕ) (ys : List ℕ) (st : File × List Ev) :
    (ys.foldl (fun st y =>
        (List.range iw).foldl (fun st x =>
          let r := renderPixel sX sY rw y x st.1
          (r.1, st.2 ++ r.2)) st) st).1.data = st.1.data ∧
    (ys.foldl (fun st y =>
        (List.range iw).foldl (fun st x =>
          let r := renderPixel sX sY rw y x st.1
          (r.1, st.2 ++ r.2)) st) st).2
      = st.2 ++ ys.flatMap (fun y =>
          (List.range iw).flatMap (fun x => pixelEvents sX sY rw st.1.data y x)) := by
  induction ys generalizing st with
  | nil => simp
  | cons y ys ih =>
    simp only [List.foldl_cons, List.flatMap_cons]
    obtain ⟨h1, h2⟩ := ih ((List.range iw).foldl (fun st x =>
          let r := renderPixel sX sY rw y x st.1
          (r.1, st.2 ++ r.2)) st)
    obtain ⟨g1, g2⟩ := foldl_pixels sX sY rw y (List.range iw) st
    dsimp only at h1 h2 g1 g2
    refine ⟨h1.trans g1, ?_⟩
    rw [h2, g1, g2, List.append_assoc]

/-- The trace of the two loops is the concatenation, row by row and column by column, of the
calls of each pixel. -/
theorem renderRows_events (sX sY : F32) (rw iw ih : ℕ) (data : List Byte) :
    (renderRows sX sY rw iw ih (⟨data, 0⟩, [])).2
      = (List.range ih).flatMap (fun y =>
          (List.range iw).flatMap (fun x => pixelEvents sX sY rw data y x)) := by
  unfold renderRows
  rw [(foldl_rows sX sY rw iw (List.range ih) (⟨data, 0⟩, [])).2]
  simp

/-- A pixel whose two bytes lie inside the file: one seek, one draw of the big-endian value. -/
theorem pixelEvents_inside (sX sY : F32) (rw : ℕ) (data : List Byte) (y x : ℕ)
    (h : pixelOffset rw (srcCoord sX x) (srcCoord sY y) + 2 ≤ data.length) :
    pixelEvents sX sY rw data y x
      = [Ev.seek (pixelOffset rw (srcCoord sX x) (srcCoord sY y)),
         Ev.drawPixel x y (colorAt data (pixelOffset rw (srcCoord sX x) (srcCoord sY y)))] := by
  unfold pixelEvents renderPixel
  simp only [File.seek, File.available, File.read]
  generalize pixelOffset rw (srcCoord sX x) (srcCoord sY y) = off at h
  have h0 : off < data.length := by omega
  have h1 : off + 1 < data.length := by omega
  rw [if_pos (by omega)]
  simp only [List.getElem?_eq_getElem h0, List.getElem?_eq_getElem h1, toUInt8_byte]
  rw [packColor_eq _ _ (data[off]).isLt (data[off + 1]).isLt]
  simp [colorAt, List.getD_eq_getElem?_getD, List.getElem?_eq_getElem h0,
    List.getElem?_eq_getElem h1]

/-- A pixel whose offset is at or past the end of the file: one seek and no draw. -/
theorem pixelEvents_outside (sX sY : F32) (rw : ℕ) (data : List Byte) (y x : ℕ)
    (h : data.length ≤ pixelOffset rw (srcCoord sX x) (srcCoord sY y)) :
    pixelEvents sX sY rw data y x
      = [Ev.seek (pixelOffset rw (srcCoord sX x) (srcCoord sY y))] := by
  unfold pixelEvents renderPixel
  simp only [File.seek, File.available]
  rw [if_neg (by omega)]

/-- A pixel whose offset is the last byte of the file: the pixel is drawn, its low byte is the
`uint8_t` value of the `-1` that `read()` returns at the end of the file. -/
theorem pixelEvents_lastByte (sX sY : F32) (rw : ℕ) (data : List Byte) (y x : ℕ)
    (h : pixelOffset rw (srcCoord sX x) (srcCoord sY y) + 1 = data.length) :
    pixelEvents sX sY rw data y x
      = [Ev.seek (pixelOffset rw (srcCoord sX x) (srcCoord sY y)),
         Ev.drawPixel x y
           ((data.getD (pixelOffset rw (srcCoord sX x) (srcCoord sY y)) 0).val * 256 + 255)] := by
  unfold pixelEvents renderPixel
  simp only [File.seek, File.available, File.read]
  generalize pixelOffset rw (srcCoord sX x) (srcCoord sY y) = off at h
  have h0 : off < data.length := by omega
  have h1 : data.length ≤ off + 1 := by omega
  rw [if_pos (by omega)]
  simp only [List.getElem?_eq_getElem h0, List.getElem?_eq_none h1, toUInt8_byte]
  have e255 : toUInt8 (-1) = 255 := by decide
  rw [e255, packColor_eq _ _ (data[off]).isLt (by norm_num)]
  simp [List.getD_eq_getElem?_getD, List.getElem?_eq_getElem h0]

theorem flatMap_eq_map_of_singleton {β : Type} (l : List ℕ) (f : ℕ → List β) (g : ℕ → β)
    (h : ∀ x ∈ l, f x = [g x]) : l.flatMap f = l.map g := by
  induction l with
  | nil => simp
  | cons a l ih =>
    rw [List.flatMap_cons, List.map_cons, h a (List.mem_cons_self a l),
      ih (fun x hx => h x (List.mem_cons_of_mem a hx))]
    rfl

theorem draws_flatMap (l : List ℕ) (f : ℕ → List Ev) :
    draws (l.flatMap f) = l.flatMap (fun a => draws (f a)) := by
  unfold draws
  induction l with
  | nil => simp
  | cons a l ih => simp [List.flatMap_cons, List.filterMap_append, ih]

/-- The draws of a successful call are those of the two loops. -/
theorem draws_displayRawImage (fs : String → Option (List Byte)) (W H rw rh : ℕ)
    (path : String) (data : List Byte) (hopen : fs path = some data) :
    draws (displayRawImage fs W H rw rh path)
      = (List.range H).flatMap (fun y => (List.range W).flatMap (fun x =>
          draws (pixelEvents (scaleFactor W rw) (scaleFactor H rh) rw data y x))) := by
  unfold displayRawImage
  rw [hopen]
  simp only [renderRows_events]
  have : draws [Ev.close, Ev.println "Image rendered successfully."] = [] := rfl
  unfold draws at this ⊢
  rw [List.filterMap_append, this, List.append_nil]
  have h := draws_flatMap
  unfold draws at h
  rw [h]
  congr 1
  funext y
  rw [h]

/-- When the two bytes of every pixel lie inside the file, every pixel is drawn once, in row-major
order, with the big-endian value found at its offset. -/
theorem draws_of_inside (fs : String → Option (List Byte)) (W H rw rh : ℕ)
    (path : String) (data : List Byte) (hopen : fs path = some data)
    (off : ℕ → ℕ → ℕ)
    (hoff : ∀ y, y < H → ∀ x, x < W →
      pixelOffset rw (srcCoord (scaleFactor W rw) x) (srcCoord (scaleFactor H rh) y) = off y x ∧
      off y x + 2 ≤ data.length) :
    draws (displayRawImage fs W H rw rh path)
      = (List.range H).flatMap (fun y => (List.range W).map (fun x =>
          (x, y, colorAt data (off y x)))) := by
  rw [draws_displayRawImage fs W H rw rh path data hopen]
  apply List.flatMap_congr
  intro y hy
  rw [List.mem_range] at hy
  apply flatMap_eq_map_of_singleton
  intro x hx
  rw [List.mem_range] at hx
  obtain ⟨h1, h2⟩ := hoff y hy x hx
  rw [pixelEvents_inside _ _ _ _ _ _ (by rw [h1]; exact h2), h1]
  rfl


theorem seeks_flatMap (l : List ℕ) (f : ℕ → List Ev) :
    seeks (l.flatMap f) = l.flatMap (fun a => seeks (f a)) := by
  unfold seeks
  induction l with
  | nil => simp
  | cons a l ih => simp [List.flatMap_cons, List.filterMap_append, ih]

/-- The seeks of a successful call are those of the two loops. -/
theorem seeks_displayRawImage (fs : String → Option (List Byte)) (W H rw rh : ℕ)
    (path : String) (data : List Byte) (hopen : fs path = some data) :
    seeks (displayRawImage fs W H rw rh path)
      = (List.range H).flatMap (fun y => (List.range W).flatMap (fun x =>
          seeks (pixelEvents (scaleFactor W rw) (scaleFactor H rh) rw data y x))) := by
  unfold displayRawImage
  rw [hopen]
  simp only [renderRows_events]
  have : seeks [Ev.close, Ev.println "Image rendered successfully."] = [] := rfl
  unfold seeks at this ⊢
  rw [List.filterMap_append, this, List.append_nil]
  have h := seeks_flatMap
  unfold seeks at h
  rw [h]
  congr 1
  funext y
  rw [h]

/-- When the two bytes of every pixel lie inside the file, the seeks are the offsets of the
pixels, one for each pixel, in row-major order. -/
theorem seeks_of_inside (fs : String → Option (List Byte)) (W H rw rh : ℕ)
    (path : String) (data : List Byte) (hopen : fs path = some data)
    (off : ℕ → ℕ → ℕ)
    (hoff : ∀ y, y < H → ∀ x, x < W →
      pixelOffset rw (srcCoord (scaleFactor W rw) x) (srcCoord (scaleFactor H rh) y) = off y x ∧
      off y x + 2 ≤ data.length) :
    seeks (displayRawImage fs W H rw rh path)
      = (List.range H).flatMap (fun y => (List.range W).map (fun x => off y x)) := by
  rw [seeks_displayRawImage fs W H rw rh path data hopen]
  apply List.flatMap_congr
  intro y hy
  rw [List.mem_range] at hy
  apply flatMap_eq_map_of_singleton
  intro x hx
  rw [List.mem_range] at hx
  obtain ⟨h1, h2⟩ := hoff y hy x hx
  rw [pixelEvents_inside _ _ _ _ _ _ (by rw [h1]; exact h2), h1]
  rfl

theorem colorAt_eq_or (data : List Byte) (off : ℕ) :
    colorAt data off = ((data.getD off 0).val <<< 8) ||| (data.getD (off + 1) 0).val := by
  unfold colorAt
  rw [Nat.shiftLeft_eq, Nat.mul_comm _ (2 ^ 8),
    ← Nat.mul_add_lt_is_or (by have := (data.getD (off + 1) 0).isLt; omega) _]
  omega

theorem offset_bound (sw sh rawX rawY : ℕ) (hx : rawX < sw) (hy : rawY < sh) :
    (rawY * sw + rawX) * 2 + 2 ≤ sw * sh * 2 := by
  have h1 : (rawY + 1) * sw ≤ sh * sw := Nat.mul_le_mul_right sw hy
  have h2 : (rawY + 1) * sw = rawY * sw + sw := by ring
  have h3 : sh * sw = sw * sh := Nat.mul_comm _ _
  omega

theorem pixelOffset_bound (sw sh rawX rawY : ℕ) (hx : rawX < sw) (hy : rawY < sh) :
    pixelOffset sw rawX rawY + 2 ≤ sw * sh * 2 := by
  have h := offset_bound sw sh rawX rawY hx hy
  have h2 : pixelOffset sw rawX rawY ≤ (rawY * sw + rawX) * 2 := Nat.mod_le _ _
  omega

theorem pixelOffset_eq (sw sh rawX rawY : ℕ) (hx : rawX < sw) (hy : rawY < sh)
    (hsz : sw * sh * 2 < 2 ^ 32) : pixelOffset sw rawX rawY = (rawY * sw + rawX) * 2 := by
  have h := offset_bound sw sh rawX rawY hx hy
  unfold pixelOffset
  exact Nat.mod_eq_of_lt (by omega)

theorem scaleFactor_self (W : ℕ) (hW0 : 0 < W) (hW : W < 65536) :
    scaleFactor W W = F32.fin 1 := by
  have h := scaleFactor_mul 1 W (by norm_num) hW0 (by omega)
  rw [Nat.one_mul] at h
  simpa using h

theorem srcCoord_one (x : ℕ) (hx : x < 65536) : srcCoord (F32.fin 1) x = x := by
  have h := srcCoord_natScale 1 x (by norm_num) (by norm_num) hx
  simpa using h

theorem srcCoord_inf (x : ℕ) (hx : x < 65536) : srcCoord F32.inf x = 0 := by
  unfold srcCoord
  rw [ofNat_u16 x hx]
  simp [F32.div, F32.toUInt16]

theorem scaleFactor_zero_right (W : ℕ) (hW0 : 0 < W) (hW : W < 65536) :
    scaleFactor W 0 = F32.inf := by
  unfold scaleFactor
  rw [ofNat_u16 W hW, ofNat_u16 0 (by norm_num)]
  have : (W : ℚ) ≠ 0 := by exact_mod_cast hW0.ne'
  simp [F32.div, this]

theorem applyTrace_of_no_draw (fr : Frame) (tr : List Ev) (h : draws tr = []) :
    applyTrace fr tr = fr := by
  unfold applyTrace
  induction tr generalizing fr with
  | nil => rfl
  | cons e tr ih =>
    cases e with
    | drawPixel x y c => simp [draws] at h
    | println m =>
      have h2 : draws tr = [] := by simpa [draws] using h
      simpa [applyEv] using ih fr h2
    | seek o =>
      have h2 : draws tr = [] := by simpa [draws] using h
      simpa [applyEv] using ih fr h2
    | close =>
      have h2 : draws tr = [] := by simpa [draws] using h
      simpa [applyEv] using ih fr h2

/-- Behaviour of the embedding when its width parameter is set to zero (the sketches
themselves fix `rawImageWidth = 240`, so `displayRawImage(filePath)` never runs this way):
the scale factor is `+inf`, every column maps to source column 0, and a 2 x 1 display is
drawn in full from the first pixel of the file. -/
theorem zero_width_parameter_draws :
    scaleFactor 2 0 = F32.inf ∧
    draws (displayRawImage (fun _ => some [0x12, 0x34]) 2 1 0 1 "/image.raw")
      = [(0, 0, 0x1234), (1, 0, 0x1234)] := by
  have hs : scaleFactor 2 0 = F32.inf := scaleFactor_zero_right 2 (by norm_num) (by norm_num)
  refine ⟨hs, ?_⟩
  have hY0 : srcCoord (scaleFactor 1 1) 0 = 0 := by
    rw [scaleFactor_self 1 (by norm_num) (by norm_num), srcCoord_one 0 (by norm_num)]
  rw [draws_of_inside (fun _ => some [0x12, 0x34]) 2 1 0 1 "/image.raw" [0x12, 0x34] rfl
    (fun _ _ => 0)]
  · decide
  · intro y hy x hx
    obtain rfl : y = 0 := by omega
    rw [hs, srcCoord_inf x (by omega), hY0]
    decide

/-- For positive 16-bit source and display dimensions (the sketches fix the source at
240 x 320) the divisors convert to non-zero `float` values and both scale factors are finite
and positive. -/
theorem scaleFactor_finite_of_pos (W H sw sh : ℕ) (hW0 : 0 < W) (hH0 : 0 < H)
    (hsw0 : 0 < sw) (hsh0 : 0 < sh) (hW : W < 65536) (hH : H < 65536) (hsw : sw < 65536)
    (hsh : sh < 65536) :
    (F32.ofNat sw = F32.fin sw ∧ (sw : ℚ) ≠ 0) ∧
    (F32.ofNat sh = F32.fin sh ∧ (sh : ℚ) ≠ 0) ∧
    (∃ sx : ℚ, 0 < sx ∧ scaleFactor W sw = F32.fin sx) ∧
    (∃ sy : ℚ, 0 < sy ∧ scaleFactor H sh = F32.fin sy) := by
  obtain ⟨sx, h1, h2, _⟩ := scaleFactor_spec W sw hW0 hW hsw0 hsw
  obtain ⟨sy, h3, h4, _⟩ := scaleFactor_spec H sh hH0 hH hsh0 hsh
  exact ⟨⟨ofNat_u16 sw hsw, by exact_mod_cast hsw0.ne'⟩,
    ⟨ofNat_u16 sh hsh, by exact_mod_cast hsh0.ne'⟩, ⟨sx, h2, h1⟩, ⟨sy, h4, h3⟩⟩

/-! ## The claims -/

/-- C1 (identity render).  When the source dimensions equal the display dimensions `W x H`
(16-bit, both at least 1) and the file holds exactly `W * H * 2` bytes (a size a 32-bit offset
can address), every column maps to itself, every row maps to itself, and the `drawPixel` calls
of `displayRawImage` are exactly the pixels `(x, y)` in row-major order, each with the colour
`(file[(y*W+x)*2] << 8) | file[(y*W+x)*2 + 1]`: a one-to-one copy of the file. -/
theorem C1_identity_render (fs : String → Option (List Byte)) (path : String)
    (data : List Byte) (W H : ℕ) (hW0 : 1 ≤ W) (hH0 : 1 ≤ H) (hW : W < 65536) (hH : H < 65536)
    (hopen : fs path = some data) (hlen : data.length = W * H * 2)
    (hsz : data.length < 2 ^ 32) :
    (∀ x, x < W → srcCoord (scaleFactor W W) x = x) ∧
    (∀ y, y < H → srcCoord (scaleFactor H H) y = y) ∧
    draws (displayRawImage fs W H W H path)
      = (List.range H).flatMap (fun y => (List.range W).map (fun x =>
          (x, y, ((data.getD ((y * W + x) * 2) 0).val <<< 8)
                  ||| (data.getD ((y * W + x) * 2 + 1) 0).val))) := by
  have hX : ∀ x, x < W → srcCoord (scaleFactor W W) x = x := fun x hx => by
    rw [scaleFactor_self W hW0 hW, srcCoord_one x (by omega)]
  have hY : ∀ y, y < H → srcCoord (scaleFactor H H) y = y := fun y hy => by
    rw [scaleFactor_self H hH0 hH, srcCoord_one y (by omega)]
  refine ⟨hX, hY, ?_⟩
  rw [draws_of_inside fs W H W H path data hopen (fun y x => (y * W + x) * 2)]
  · simp only [colorAt_eq_or]
  · intro y hy x hx
    rw [hX x hx, hY y hy]
    have hb := offset_bound W H x y hx hy
    exact ⟨pixelOffset_eq W H x y hx hy (by omega), by omega⟩

/-- Witness for C1: a 1 x 1 display and the two-byte file `12 34`. -/
theorem C1_identity_render_witness :
    draws (displayRawImage (fun _ => some [0x12, 0x34]) 1 1 1 1 "/convertedImage.raw")
      = [(0, 0, 0x1234)] :=
  (C1_identity_render (fun _ => some [0x12, 0x34]) "/convertedImage.raw" [0x12, 0x34] 1 1
    (by decide) (by decide) (by decide) (by decide) rfl (by decide) (by decide)).2.2.trans
    (by decide)

/-- C2 (source coordinates in range).  For positive 16-bit source and display dimensions and
every destination pixel `x < W`, `y < H`, the coordinates `rawX = trunc(x / scaleX)` and
`rawY = trunc(y / scaleY)` computed in `float` satisfy `rawX < sourceWidth` and
`rawY < sourceHeight`; hence the byte offset plus 2 is at most
`sourceWidth * sourceHeight * 2`, and with a file of that size the seek lands inside the file
with both bytes of the pixel available. -/
theorem C2_source_coordinates_in_range (sw sh W H x y : ℕ) (hsw0 : 0 < sw) (hsh0 : 0 < sh)
    (hsw : sw < 65536) (hsh : sh < 65536) (hW : W < 65536) (hH : H < 65536)
    (hx : x < W) (hy : y < H) :
    srcCoord (scaleFactor W sw) x < sw ∧
    srcCoord (scaleFactor H sh) y < sh ∧
    pixelOffset sw (srcCoord (scaleFactor W sw) x) (srcCoord (scaleFactor H sh) y) + 2
      ≤ sw * sh * 2 ∧
    ∀ data : List Byte, data.length = sw * sh * 2 →
      2 ≤ (File.seek ⟨data, 0⟩
            (pixelOffset sw (srcCoord (scaleFactor W sw) x)
              (srcCoord (scaleFactor H sh) y))).available := by
  have h1 := srcCoord_lt W sw x hW hsw0 hsw hx
  have h2 := srcCoord_lt H sh y hH hsh0 hsh hy
  have h3 := pixelOffset_bound sw sh _ _ h1 h2
  refine ⟨h1, h2, h3, ?_⟩
  intro data hlen
  simp only [File.seek, File.available]
  omega

/-- Witness for C2: the shipped configuration, a 240 x 320 source on the 320 x 240 landscape
display, at the last pixel of the frame. -/
theorem C2_source_coordinates_in_range_witness :
    srcCoord (scaleFactor 320 shippedRawImageWidth) 319 < shippedRawImageWidth ∧
    srcCoord (scaleFactor 240 shippedRawImageHeight) 239 < shippedRawImageHeight ∧
    pixelOffset shippedRawImageWidth (srcCoord (scaleFactor 320 shippedRawImageWidth) 319)
        (srcCoord (scaleFactor 240 shippedRawImageHeight) 239) + 2
      ≤ shippedRawImageWidth * shippedRawImageHeight * 2 :=
  have h := C2_source_coordinates_in_range shippedRawImageWidth shippedRawImageHeight 320 240
    319 239 (by decide) (by decide) (by decide) (by decide) (by decide) (by decide)
    (by decide) (by decide)
  ⟨h.1, h.2.1, h.2.2.1⟩

/-- C3 (truncation on a 2x downscale).  For 16-bit dimensions and a file of exactly
`sourceWidth * sourceHeight * 2` bytes (a size a 32-bit offset can address):
with `sourceWidth = 2 * W`, every destination column `x < W` samples source column exactly
`2 * x`: the seeks of `displayRawImage` are the offsets `(rawY * sourceWidth + 2*x) * 2` and
each pixel `(x, y)` is drawn, once and in row-major order, with the two bytes found there, so
never from column `2*x + 1` and never a blend; likewise vertically with
`sourceHeight = 2 * H` and row `2 * y`; with both, pixel `(x, y)` is read at
`((2*y) * (2*W) + 2*x) * 2`.  Scenario: a 2 x 1 source with pixels `FFFF`, `0000` on a 1 x 1
sink draws exactly one pixel, at `(0, 0)`, with colour `0xFFFF`. -/
theorem C3_truncation_on_downscale (fs : String → Option (List Byte)) (path : String)
    (data : List Byte) (W H sw sh : ℕ) (hW0 : 1 ≤ W) (hH0 : 1 ≤ H) (hW : W < 65536)
    (hH : H < 65536) (hsw0 : 1 ≤ sw) (hsh0 : 1 ≤ sh) (hsw : sw < 65536) (hsh : sh < 65536)
    (hopen : fs path = some data) (hlen : data.length = sw * sh * 2)
    (hsz : data.length < 2 ^ 32) :
    (sw = 2 * W →
      (∀ x, x < W → srcCoord (scaleFactor W sw) x = 2 * x) ∧
      seeks (displayRawImage fs W H sw sh path)
        = (List.range H).flatMap (fun y => (List.range W).map (fun x =>
            (srcCoord (scaleFactor H sh) y * sw + 2 * x) * 2)) ∧
      draws (displayRawImage fs W H sw sh path)
        = (List.range H).flatMap (fun y => (List.range W).map (fun x =>
            (x, y, colorAt data ((srcCoord (scaleFactor H sh) y * sw + 2 * x) * 2))))) ∧
    (sh = 2 * H →
      (∀ y, y < H → srcCoord (scaleFactor H sh) y = 2 * y) ∧
      seeks (displayRawImage fs W H sw sh path)
        = (List.range H).flatMap (fun y => (List.range W).map (fun x =>
            ((2 * y) * sw + srcCoord (scaleFactor W sw) x) * 2)) ∧
      draws (displayRawImage fs W H sw sh path)
        = (List.range H).flatMap (fun y => (List.range W).map (fun x =>
            (x, y, colorAt data (((2 * y) * sw + srcCoord (scaleFactor W sw) x) * 2))))) ∧
    (sw = 2 * W → sh = 2 * H →
      seeks (displayRawImage fs W H sw sh path)
        = (List.range H).flatMap (fun y => (List.range W).map (fun x =>
            ((2 * y) * (2 * W) + 2 * x) * 2)) ∧
      draws (displayRawImage fs W H sw sh path)
        = (List.range H).flatMap (fun y => (List.range W).map (fun x =>
            (x, y, colorAt data (((2 * y) * (2 * W) + 2 * x) * 2))))) ∧
    draws (displayRawImage (fun _ => some [0xFF, 0xFF, 0x00, 0x00]) 1 1 2 1 "/image.raw")
      = [(0, 0, 0xFFFF)] := by
  have hszq : sw * sh * 2 < 2 ^ 32 := by omega
  have hXlt : ∀ x, x < W → srcCoord (scaleFactor W sw) x < sw := fun x hx =>
    srcCoord_lt W sw x hW hsw0 hsw hx
  have hYlt : ∀ y, y < H → srcCoord (scaleFactor H sh) y < sh := fun y hy =>
    srcCoord_lt H sh y hH hsh0 hsh hy
  have hX2 : sw = 2 * W → ∀ x, x < W → srcCoord (scaleFactor W sw) x = 2 * x := by
    intro e x hx
    subst e
    rw [scaleFactor_half W hW0 hsw, srcCoord_half x (by omega)]
  have hY2 : sh = 2 * H → ∀ y, y < H → srcCoord (scaleFactor H sh) y = 2 * y := by
    intro e y hy
    subst e
    rw [scaleFactor_half H hH0 hsh, srcCoord_half y (by omega)]
  have hin : ∀ y, y < H → ∀ x, x < W →
      pixelOffset sw (srcCoord (scaleFactor W sw) x) (srcCoord (scaleFactor H sh) y)
        = (srcCoord (scaleFactor H sh) y * sw + srcCoord (scaleFactor W sw) x) * 2 ∧
      (srcCoord (scaleFactor H sh) y * sw + srcCoord (scaleFactor W sw) x) * 2 + 2
        ≤ data.length := by
    intro y hy x hx
    have hb := offset_bound sw sh _ _ (hXlt x hx) (hYlt y hy)
    exact ⟨pixelOffset_eq sw sh _ _ (hXlt x hx) (hYlt y hy) hszq, by omega⟩
  refine ⟨?_, ?_, ?_, ?_⟩
  · intro e
    have hoff : ∀ y, y < H → ∀ x, x < W →
        pixelOffset sw (srcCoord (scaleFactor W sw) x) (srcCoord (scaleFactor H sh) y)
          = (srcCoord (scaleFactor H sh) y * sw + 2 * x) * 2 ∧
        (srcCoord (scaleFactor H sh) y * sw + 2 * x) * 2 + 2 ≤ data.length := by
      intro y hy x hx
      have h := hin y hy x hx
      rw [hX2 e x hx] at h ⊢
      exact h
    exact ⟨hX2 e,
      seeks_of_inside fs W H sw sh path data hopen
        (fun y x => (srcCoord (scaleFactor H sh) y * sw + 2 * x) * 2) hoff,
      draws_of_inside fs W H sw sh path data hopen
        (fun y x => (srcCoord (scaleFactor H sh) y * sw + 2 * x) * 2) hoff⟩
  · intro e
    have hoff : ∀ y, y < H → ∀ x, x < W →
        pixelOffset sw (srcCoord (scaleFactor W sw) x) (srcCoord (scaleFactor H sh) y)
          = ((2 * y) * sw + srcCoord (scaleFactor W sw) x) * 2 ∧
        ((2 * y) * sw + srcCoord (scaleFactor W sw) x) * 2 + 2 ≤ data.length := by
      intro y hy x hx
      have h := hin y hy x hx
      rw [hY2 e y hy] at h ⊢
      exact h
    exact ⟨hY2 e,
      seeks_of_inside fs W H sw sh path data hopen
        (fun y x => ((2 * y) * sw + srcCoord (scaleFactor W sw) x) * 2) hoff,
      draws_of_inside fs W H sw sh path data hopen
        (fun y x => ((2 * y) * sw + srcCoord (scaleFactor W sw) x) * 2) hoff⟩
  · intro e1 e2
    have hoff : ∀ y, y < H → ∀ x, x < W →
        pixelOffset sw (srcCoord (scaleFactor W sw) x) (srcCoord (scaleFactor H sh) y)
          = ((2 * y) * (2 * W) + 2 * x) * 2 ∧
        ((2 * y) * (2 * W) + 2 * x) * 2 + 2 ≤ data.length := by
      intro y hy x hx
      have h := hin y hy x hx
      rw [hX2 e1 x hx, hY2 e2 y hy] at h ⊢
      rw [e1] at h ⊢
      exact h
    exact ⟨seeks_of_inside fs W H sw sh path data hopen
        (fun y x => ((2 * y) * (2 * W) + 2 * x) * 2) hoff,
      draws_of_inside fs W H sw sh path data hopen
        (fun y x => ((2 * y) * (2 * W) + 2 * x) * 2) hoff⟩
  · have hX0 : srcCoord (scaleFactor 1 2) 0 = 0 := by
      rw [scaleFactor_half 1 (by norm_num) (by norm_num), srcCoord_half 0 (by norm_num)]
    have hY0 : srcCoord (scaleFactor 1 1) 0 = 0 := by
      rw [scaleFactor_self 1 (by norm_num) (by norm_num), srcCoord_one 0 (by norm_num)]
    rw [draws_of_inside (fun _ => some [0xFF, 0xFF, 0x00, 0x00]) 1 1 2 1 "/image.raw"
      [0xFF, 0xFF, 0x00, 0x00] rfl (fun _ _ => 0)]
    · decide
    · intro y hy x hx
      obtain rfl : y = 0 := by omega
      obtain rfl : x = 0 := by omega
      rw [hX0, hY0]
      decide

/-- Witness for C3: a 4 x 2 source with pixels `0001 0203 0405 0607` over
`0809 0A0B 0C0D 0E0F` on a 2 x 1 display: the seeks are 0 and 4 and the two draws carry
source pixels `(0, 0)` and `(2, 0)`. -/
theorem C3_truncation_on_downscale_witness :
    seeks (displayRawImage
        (fun _ => some [0, 1, 2, 3, 4, 5, 6, 7, 8, 9, 10, 11, 12, 13, 14, 15]) 2 1 4 2
        "/image.raw") = [0, 4] ∧
    draws (displayRawImage
        (fun _ => some [0, 1, 2, 3, 4, 5, 6, 7, 8, 9, 10, 11, 12, 13, 14, 15]) 2 1 4 2
        "/image.raw") = [(0, 0, 0x0001), (1, 0, 0x0405)] :=
  have h := (C3_truncation_on_downscale
    (fun _ => some [0, 1, 2, 3, 4, 5, 6, 7, 8, 9, 10, 11, 12, 13, 14, 15]) "/image.raw"
    [0, 1, 2, 3, 4, 5, 6, 7, 8, 9, 10, 11, 12, 13, 14, 15] 2 1 4 2
    (by decide) (by decide) (by decide) (by decide) (by decide) (by decide) (by decide)
    (by decide) rfl (by decide) (by decide)).2.2.1 rfl rfl
  ⟨h.1.trans (by decide), h.2.trans (by decide)⟩

/-- C4 (big-endian colour decode).  For every pair of bytes the packed colour is
`highByte * 256 + lowByte`, below 65536, with `colour >> 8 = highByte` and
`colour & 0xFF = lowByte`; the bytes `12 34` decode to `0x1234`, not `0x3412`; and for a pixel
whose two bytes lie inside the file the colour passed to `drawPixel` is packed from the byte
at the offset of the pixel (high) and the byte at offset + 1 (low). -/
theorem C4_big_endian_decode (highByte lowByte : Byte) (scaleX scaleY : F32)
    (rawImageWidth : ℕ) (data : List Byte) (y x : ℕ)
    (h : pixelOffset rawImageWidth (srcCoord scaleX x) (srcCoord scaleY y) + 2 ≤ data.length) :
    packColor highByte.val lowByte.val = highByte.val * 256 + lowByte.val ∧
    packColor highByte.val lowByte.val < 65536 ∧
    packColor highByte.val lowByte.val >>> 8 = highByte.val ∧
    packColor highByte.val lowByte.val &&& 0xFF = lowByte.val ∧
    packColor 0x12 0x34 = 0x1234 ∧ packColor 0x12 0x34 ≠ 0x3412 ∧
    draws (pixelEvents scaleX scaleY rawImageWidth data y x)
      = [(x, y, packColor
          (data.getD (pixelOffset rawImageWidth (srcCoord scaleX x) (srcCoord scaleY y)) 0).val
          (data.getD (pixelOffset rawImageWidth (srcCoord scaleX x) (srcCoord scaleY y) + 1)
            0).val)] := by
  have hh := highByte.isLt
  have hl := lowByte.isLt
  have e := packColor_eq highByte.val lowByte.val hh hl
  refine ⟨e, by omega, ?_, ?_, by decide, by decide, ?_⟩
  · rw [e, Nat.shiftRight_eq_div_pow]; omega
  · rw [e]
    have : (0xFF : ℕ) = 2 ^ 8 - 1 := by norm_num
    rw [this, Nat.and_pow_two_sub_one_eq_mod]; omega
  · rw [pixelEvents_inside _ _ _ _ _ _ h, packColor_eq _ _ (Fin.isLt _) (Fin.isLt _)]
    rfl

/-- Witness for C4: the file `12 34` read at offset 0 on a 1 x 1 identity render. -/
theorem C4_big_endian_decode_witness :
    draws (pixelEvents (F32.fin 1) (F32.fin 1) 1 [0x12, 0x34] 0 0) = [(0, 0, 0x1234)] :=
  have h0 : srcCoord (F32.fin 1) 0 = 0 := srcCoord_one 0 (by decide)
  (C4_big_endian_decode 0x12 0x34 (F32.fin 1) (F32.fin 1) 1 [0x12, 0x34] 0 0
    (by rw [h0]; decide)).2.2.2.2.2.2.trans (by rw [h0]; decide)

/-- C5 (open failure draws nothing).  When the storage cannot open the path,
`displayRawImage` only prints the failure message: it makes no `drawPixel` call and no `seek`,
whatever the display and source dimensions, and the pixels of the sink after the call are
its pixels before it. -/
theorem C5_open_failure_draws_nothing (fs : String → Option (List Byte))
    (W H rawImageWidth rawImageHeight : ℕ) (path : String) (fr : Frame)
    (hopen : fs path = none) :
    displayRawImage fs W H rawImageWidth rawImageHeight path
      = [Ev.println "Failed to open image file"] ∧
    draws (displayRawImage fs W H rawImageWidth rawImageHeight path) = [] ∧
    seeks (displayRawImage fs W H rawImageWidth rawImageHeight path) = [] ∧
    applyTrace fr (displayRawImage fs W H rawImageWidth rawImageHeight path) = fr := by
  have e : displayRawImage fs W H rawImageWidth rawImageHeight path
      = [Ev.println "Failed to open image file"] := by
    unfold displayRawImage
    rw [hopen]
  rw [e]
  exact ⟨rfl, rfl, rfl, rfl⟩

/-- Witness for C5: an empty file system, the shipped dimensions, a black frame. -/
theorem C5_open_failure_draws_nothing_witness :
    draws (displayRawImage (fun _ => none) 320 240 240 320 "/TrainLogoWScript.raw") = [] ∧
    applyTrace (fun _ _ => 0)
      (displayRawImage (fun _ => none) 320 240 240 320 "/TrainLogoWScript.raw")
      = (fun _ _ => 0) :=
  have h := C5_open_failure_draws_nothing (fun _ => none) 320 240 240 320
    "/TrainLogoWScript.raw" (fun _ _ => 0) rfl
  ⟨h.2.1, h.2.2.2⟩

/-- C7, the code at the failing input.  A file of one byte `12`: the pixel at offset 0 has
only one byte available, yet it is drawn, with the low byte `FF` that comes from the `-1` of
the second `read()`: on a 1 x 1 identity render, and at the pixel `(0, 0)` of the shipped
240 x 320 source on the 320 x 240 display. -/
theorem C7_odd_length_file_is_drawn :
    draws (displayRawImage (fun _ => some [0x12]) 1 1 1 1 "/image.raw") = [(0, 0, 0x12FF)] ∧
    draws (pixelEvents (scaleFactor 320 shippedRawImageWidth)
      (scaleFactor 240 shippedRawImageHeight) shippedRawImageWidth [0x12] 0 0)
      = [(0, 0, 0x12FF)] := by
  have h0 : srcCoord (scaleFactor 1 1) 0 = 0 := by
    rw [scaleFactor_self 1 (by norm_num) (by norm_num), srcCoord_one 0 (by norm_num)]
  constructor
  · rw [draws_displayRawImage (fun _ => some [0x12]) 1 1 1 1 "/image.raw" [0x12] rfl]
    have : List.range 1 = [0] := rfl
    rw [this]
    simp only [List.flatMap_cons, List.flatMap_nil, List.append_nil]
    rw [pixelEvents_lastByte _ _ _ _ _ _ (by rw [h0]; decide), h0]
    decide
  · obtain ⟨sx, hsx, hpx, _⟩ := scaleFactor_spec 320 shippedRawImageWidth (by norm_num)
      (by norm_num) (by decide) (by decide)
    obtain ⟨sy, hsy, hpy, _⟩ := scaleFactor_spec 240 shippedRawImageHeight (by norm_num)
      (by norm_num) (by decide) (by decide)
    have hx0 : srcCoord (scaleFactor 320 shippedRawImageWidth) 0 = 0 := by
      rw [hsx, srcCoord_zero sx hpx]
    have hy0 : srcCoord (scaleFactor 240 shippedRawImageHeight) 0 = 0 := by
      rw [hsy, srcCoord_zero sy hpy]
    rw [pixelEvents_lastByte _ _ _ _ _ _ (by rw [hx0, hy0]; decide), hx0, hy0]
    decide

/-- C8 (integer upscale).  For every factor `k >= 1`, every source `sw x sh` (both at least
1), a display of `W = k * sw` by `H = k * sh` (16-bit) and a file of exactly `sw * sh * 2`
bytes (a size a 32-bit offset can address), the `drawPixel` calls of `displayRawImage` are
exactly the `W * H` destination pixels in row-major order, each once, and pixel `(x, y)`
carries the colour of source pixel `(x / k, y / k)`. -/
theorem C8_integer_upscale_blocks (fs : String → Option (List Byte)) (path : String)
    (data : List Byte) (k sw sh : ℕ) (hk : 1 ≤ k) (hsw0 : 1 ≤ sw) (hsh0 : 1 ≤ sh)
    (hW : k * sw < 65536) (hH : k * sh < 65536) (hopen : fs path = some data)
    (hlen : data.length = sw * sh * 2) (hsz : data.length < 2 ^ 32) :
    draws (displayRawImage fs (k * sw) (k * sh) sw sh path)
      = (List.range (k * sh)).flatMap (fun y => (List.range (k * sw)).map (fun x =>
          (x, y, colorAt data (((y / k) * sw + x / k) * 2)))) ∧
    (draws (displayRawImage fs (k * sw) (k * sh) sw sh path)).length = (k * sw) * (k * sh) := by
  have hk2 : k < 65536 := by nlinarith
  have hmain : draws (displayRawImage fs (k * sw) (k * sh) sw sh path)
      = (List.range (k * sh)).flatMap (fun y => (List.range (k * sw)).map (fun x =>
          (x, y, colorAt data (((y / k) * sw + x / k) * 2)))) := by
    apply draws_of_inside fs (k * sw) (k * sh) sw sh path data hopen
      (fun y x => ((y / k) * sw + x / k) * 2)
    intro y hy x hx
    rw [scaleFactor_mul k sw hk hsw0 hW, scaleFactor_mul k sh hk hsh0 hH,
      srcCoord_natScale k x hk hk2 (by omega), srcCoord_natScale k y hk hk2 (by omega)]
    have hxk : x / k < sw := (Nat.div_lt_iff_lt_mul hk).mpr (by rw [Nat.mul_comm]; exact hx)
    have hyk : y / k < sh := (Nat.div_lt_iff_lt_mul hk).mpr (by rw [Nat.mul_comm]; exact hy)
    have hb := offset_bound sw sh (x / k) (y / k) hxk hyk
    exact ⟨pixelOffset_eq sw sh _ _ hxk hyk (by omega), by omega⟩
  refine ⟨hmain, ?_⟩
  rw [hmain]
  generalize k * sh = H
  generalize k * sw = W
  induction H with
  | zero => simp
  | succ n ih =>
    rw [List.range_succ, List.flatMap_append, List.length_append, ih]
    simp [List.flatMap_cons]
    ring

/-- Witness for C8: a 4 x 4 all-black source (32 bytes) on an 8 x 8 sink: 64 draws of
`0x0000`, row-major from `(0, 0)`. -/
theorem C8_integer_upscale_blocks_witness :
    draws (displayRawImage (fun _ => some (List.replicate 32 0)) 8 8 4 4 "/image.raw")
      = (List.range 8).flatMap (fun y => (List.range 8).map (fun x => (x, y, 0))) ∧
    (draws (displayRawImage (fun _ => some (List.replicate 32 0)) 8 8 4 4 "/image.raw")).length
      = 64 :=
  have h := C8_integer_upscale_blocks (fun _ => some (List.replicate 32 0)) "/image.raw"
    (List.replicate 32 0) 2 4 4 (by decide) (by decide) (by decide) (by decide) (by decide)
    rfl (by decide) (by decide)
  ⟨h.1.trans (by decide), h.2⟩

/-- C9 (button-to-media-key relay).  For every combination of pin readings, one iteration of
`loop()` with the keyboard connected writes exactly the media keys whose button pin reads
`LOW`, each once, in the order play/pause, next track, previous track, volume up, volume
down, and no key for a pin that reads anything else; one iteration with the keyboard not
connected writes no key.  This holds for the combined sketch and for
`BLEButtonControl.cpp`; the three-button sketch does the same with its three buttons. -/
theorem C9_button_relay (digitalRead : ℕ → ℕ) (g : Globals) (g3 : SpeakerCodeMain.Globals) :
    keysWritten (Combined.loop true digitalRead g).2
      = (buttonKeys.filter (fun b => digitalRead b.1 = LOW)).map Prod.snd ∧
    keysWritten (Combined.loop false digitalRead g).2 = [] ∧
    keysWritten (BLEButtonControl.loop true digitalRead g).2
      = (buttonKeys.filter (fun b => digitalRead b.1 = LOW)).map Prod.snd ∧
    keysWritten (BLEButtonControl.loop false digitalRead g).2 = [] ∧
    keysWritten (SpeakerCodeMain.loop true digitalRead g3).2
      = ((buttonKeys.take 3).filter (fun b => digitalRead b.1 = LOW)).map Prod.snd ∧
    keysWritten (SpeakerCodeMain.loop false digitalRead g3).2 = [] := by
  refine ⟨?_, rfl, ?_, rfl, ?_, rfl⟩
  · unfold Combined.loop buttonKeys keysWritten
    by_cases h1 : digitalRead playPauseButtonPin = LOW <;>
    by_cases h2 : digitalRead nextTrackButtonPin = LOW <;>
    by_cases h3 : digitalRead prevTrackButtonPin = LOW <;>
    by_cases h4 : digitalRead volumeUpButtonPin = LOW <;>
    by_cases h5 : digitalRead volumeDownButtonPin = LOW <;>
    cases g.firstConnection <;>
    simp [h1, h2, h3, h4, h5, List.filter]
  · unfold BLEButtonControl.loop buttonKeys keysWritten
    by_cases h1 : digitalRead playPauseButtonPin = LOW <;>
    by_cases h2 : digitalRead nextTrackButtonPin = LOW <;>
    by_cases h3 : digitalRead prevTrackButtonPin = LOW <;>
    by_cases h4 : digitalRead volumeUpButtonPin = LOW <;>
    by_cases h5 : digitalRead volumeDownButtonPin = LOW <;>
    cases g.firstConnection <;>
    simp [h1, h2, h3, h4, h5, List.filter]
  · unfold SpeakerCodeMain.loop buttonKeys keysWritten
    by_cases h1 : digitalRead playPauseButtonPin = LOW <;>
    by_cases h2 : digitalRead nextTrackButtonPin = LOW <;>
    by_cases h3 : digitalRead prevTrackButtonPin = LOW <;>
    simp [h1, h2, h3, List.filter]

/-- C10, the code at the failing input.  `setup()` of the combined sketch puts all five
button pins in pull-down mode, not pull-up; an idle pin then reads `LOW`, and one connected
iteration of `loop()` with no button pressed writes all five media keys.  The two other
sketches use pull-ups and write no key when idle. -/
theorem C10_combined_setup_is_pulldown :
    pinModes Combined.setup
      = [(playPauseButtonPin, PinMode.INPUT_PULLDOWN), (nextTrackButtonPin, PinMode.INPUT_PULLDOWN),
         (prevTrackButtonPin, PinMode.INPUT_PULLDOWN), (volumeUpButtonPin, PinMode.INPUT_PULLDOWN),
         (volumeDownButtonPin, PinMode.INPUT_PULLDOWN), (LED_BUILTIN, PinMode.OUTPUT)] ∧
    keysWritten (Combined.loop true (idleRead Combined.setup) Globals.init).2
      = [MediaKey.KEY_MEDIA_PLAY_PAUSE, MediaKey.KEY_MEDIA_NEXT_TRACK,
         MediaKey.KEY_MEDIA_PREVIOUS_TRACK, MediaKey.KEY_MEDIA_VOLUME_UP,
         MediaKey.KEY_MEDIA_VOLUME_DOWN] ∧
    pinModes BLEButtonControl.setup
      = [(playPauseButtonPin, PinMode.INPUT_PULLUP), (nextTrackButtonPin, PinMode.INPUT_PULLUP),
         (prevTrackButtonPin, PinMode.INPUT_PULLUP), (volumeUpButtonPin, PinMode.INPUT_PULLUP),
         (volumeDownButtonPin, PinMode.INPUT_PULLUP), (LED_BUILTIN, PinMode.OUTPUT)] ∧
    keysWritten (BLEButtonControl.loop true (idleRead BLEButtonControl.setup) Globals.init).2
      = [] ∧
    pinModes SpeakerCodeMain.setup
      = [(playPauseButtonPin, PinMode.INPUT_PULLUP), (nextTrackButtonPin, PinMode.INPUT_PULLUP),
         (prevTrackButtonPin, PinMode.INPUT_PULLUP), (LED_BUILTIN, PinMode.OUTPUT)] ∧
    keysWritten (SpeakerCodeMain.loop true (idleRead SpeakerCodeMain.setup)
      ⟨HIGH, HIGH, HIGH⟩).2 = [] := by
  decide

end BluetoothSpeaker
